import Mathlib

/-!
Verification of the osbparser storyboard library against its specification.

The Python sources are shallowly embedded:
* text is modelled as `List Char` (Python `str`), with Python's string
  primitives (`str.split`, `str.lstrip`, `int`) implemented structurally;
* floats that the claims compare exactly (opacities, attribute values) are
  modelled as `ℚ`;
* machine-level exceptions (`IndentError`, `InvalidSectionError`, …,
  `KeyError`) become constructors of explicit error types, and fallible
  functions return `Except`/`Option`;
* the easing library (transcendental float curves in `enums.py`) is never
  evaluated by any claim, so easing kinds are an enumeration and the
  interpolator takes the curve family as an explicit function argument.
-/

namespace Osbparser

/-- Python `str` modelled as a list of characters. -/
abbrev Str := List Char

/-- The 35-member `Easing` enumeration from `enums.py`. -/
inductive Easing where
  | Linear | EasingOut | EasingIn
  | QuadIn | QuadOut | QuadInOut
  | CubicIn | CubicOut | CubicInOut
  | QuartIn | QuartOut | QuartInOut
  | QuintIn | QuintOut | QuintInOut
  | SineIn | SineOut | SineInOut
  | ExpoIn | ExpoOut | ExpoInOut
  | CircIn | CircOut | CircInOut
  | ElasticIn | ElasticOut | ElasticHalfOut | ElasticQuarterOut | ElasticInOut
  | BackIn | BackOut | BackInOut
  | BounceIn | BounceOut | BounceInOut
deriving DecidableEq, Repr

/-- `find_enum_by_value(Easing, v)` from `enums.py`: the member with value
`v` (members are numbered 0..34 in declaration order), `none` meaning the
`InvalidEnum` failure. -/
def easingOfValue (v : Int) : Option Easing :=
  match v with
  | 0 => some .Linear | 1 => some .EasingOut | 2 => some .EasingIn
  | 3 => some .QuadIn | 4 => some .QuadOut | 5 => some .QuadInOut
  | 6 => some .CubicIn | 7 => some .CubicOut | 8 => some .CubicInOut
  | 9 => some .QuartIn | 10 => some .QuartOut | 11 => some .QuartInOut
  | 12 => some .QuintIn | 13 => some .QuintOut | 14 => some .QuintInOut
  | 15 => some .SineIn | 16 => some .SineOut | 17 => some .SineInOut
  | 18 => some .ExpoIn | 19 => some .ExpoOut | 20 => some .ExpoInOut
  | 21 => some .CircIn | 22 => some .CircOut | 23 => some .CircInOut
  | 24 => some .ElasticIn | 25 => some .ElasticOut | 26 => some .ElasticHalfOut
  | 27 => some .ElasticQuarterOut | 28 => some .ElasticInOut
  | 29 => some .BackIn | 30 => some .BackOut | 31 => some .BackInOut
  | 32 => some .BounceIn | 33 => some .BounceOut | 34 => some .BounceInOut
  | _ => none

/-- The `Parameter` enumeration from `enums.py`. -/
inductive Parameter where
  | H | V | A
deriving DecidableEq, Repr

/-- The `Trigger` enumeration from `enums.py`. -/
inductive Trigger where
  | HitSoundClap | HitSoundFinish | HitSoundWhistle | Passing | Failing
deriving DecidableEq, Repr

/-- The per-kind payload of the `SimpleCommand` subclasses in `osb.py`
(`CmdFade`, `CmdMove`, …, `CmdParameter`), as a closed sum. -/
inductive Payload where
  | fade (start_opacity end_opacity : ℚ)
  | move (startx starty endx endy : ℚ)
  | movex (startx endx : ℚ)
  | movey (starty endy : ℚ)
  | scale (startscale endscale : ℚ)
  | vectorScale (startx starty endx endy : ℚ)
  | rotate (startangle endangle : ℚ)
  | colour (r1 g1 b1 r2 g2 b2 : Int)
  | param (parameter : Parameter)
deriving DecidableEq, Repr

/-- The command kinds that `ClassifiedCommands.parse` keys its dictionary by. -/
inductive CmdKind where
  | fade | move | movex | movey | scale | vectorScale | rotate | colour | param
deriving DecidableEq, Repr

def Payload.kind : Payload → CmdKind
  | .fade .. => .fade
  | .move .. => .move
  | .movex .. => .movex
  | .movey .. => .movey
  | .scale .. => .scale
  | .vectorScale .. => .vectorScale
  | .rotate .. => .rotate
  | .colour .. => .colour
  | .param .. => .param

/-- `SimpleCommand` from `osb.py`: a timed, eased command.  The Python
subclass is recorded in `payload`. -/
structure SimpleCommand where
  lineno : Nat
  easing : Easing
  start : Int
  endT : Int
  payload : Payload
deriving DecidableEq, Repr

/-- `SimpleCommand.is_instant` from `osb.py`. -/
def SimpleCommand.is_instant (c : SimpleCommand) : Bool :=
  c.start = c.endT

def SimpleCommand.kind (c : SimpleCommand) : CmdKind := c.payload.kind

/-- `Command` from `osb.py`: either a simple command, a `CmdLoop`, or a
`CmdEventTriggeredLoop` (the only non-simple subclasses). -/
inductive Command where
  | simple (cmd : SimpleCommand)
  | loop (lineno : Nat) (starttime loopcount : Int) (children : List Command)
  | triggeredLoop (lineno : Nat) (trigger : Trigger) (start endT : Int)
      (children : List Command)

/-- `FlattenedCommands.parse` from `osb.py`: simple commands are copied
through, `CmdLoop` bodies are flattened recursively, shifted by the loop's
`starttime` (with `duration` accumulated from the *unshifted* ends starting
at 0), then repeated `loopcount - 1` further times at offsets `i * duration`;
`CmdEventTriggeredLoop` contents are dropped. -/
def parseFlat : List Command → List SimpleCommand
  | [] => []
  | .simple c :: rest => c :: parseFlat rest
  | .loop _ starttime loopcount children :: rest =>
      let subcommands := parseFlat children
      let duration := subcommands.foldl (fun d c => max d c.endT) 0
      let shifted := subcommands.map (fun c =>
        { c with start := c.start + starttime, endT := c.endT + starttime })
      shifted ++
        ((List.range' 1 (loopcount - 1).toNat).flatMap (fun i =>
          shifted.map (fun c =>
            { c with start := c.start + i * duration, endT := c.endT + i * duration }))) ++
        parseFlat rest
  | .triggeredLoop _ _ _ _ _ :: rest => parseFlat rest

/-- `FlattenedCommands.get_start` from `osb.py`: `min` of the starts of a
(non-empty) command list; the `[]` case is unreachable behind the guard in
`visible_ranges`. -/
def get_start : List SimpleCommand → Int
  | [] => 0
  | c :: rest => rest.foldl (fun m x => min m x.start) c.start

/-- `FlattenedCommands.get_end` from `osb.py`. -/
def get_end : List SimpleCommand → Int
  | [] => 0
  | c :: rest => rest.foldl (fun m x => max m x.endT) c.endT

/-- Shifting a simple command's time range, as the spec describes loop
expansion: "each child shifted by starttime … offset by an additional
i × duration". -/
def shiftCmd (off : Int) (c : SimpleCommand) : SimpleCommand :=
  { c with start := c.start + off, endT := c.endT + off }

/-- The spec's description of a loop's duration: "the maximum end among the
zero-based children (at least 0)". -/
def durSpec (subs : List SimpleCommand) : Int :=
  (subs.map SimpleCommand.endT).foldr max 0

/-- The Fade child `F,0,0,500,0,1` of the spec's loop-expansion example. -/
def fadeChildC2 : SimpleCommand := ⟨2, .Linear, 0, 500, .fade 0 1⟩

lemma foldr_max_init_comm (l : List Int) (x a : Int) :
    l.foldr max (max x a) = max x (l.foldr max a) := by
  induction l with
  | nil => rfl
  | cons b t ih => simp [List.foldr_cons, ih, max_left_comm]

lemma foldl_max_endT_eq (l : List SimpleCommand) (a : Int) :
    l.foldl (fun d c => max d c.endT) a = (l.map SimpleCommand.endT).foldr max a := by
  induction l generalizing a with
  | nil => rfl
  | cons c t ih =>
      simp only [List.foldl_cons, List.map_cons, List.foldr_cons, ih]
      rw [max_comm a c.endT, foldr_max_init_comm]

lemma shiftCmd_shiftCmd (o1 o2 : Int) (c : SimpleCommand) :
    shiftCmd o1 (shiftCmd o2 c) = shiftCmd (o2 + o1) c := by
  simp [shiftCmd, add_assoc]

/-- C2.  Flattening `L,1000,3` whose single child is `F,0,0,500,0,1` yields
exactly three Fade commands at (1000,1500), (1500,2000), (2000,2500); and in
general, for `loopcount ≥ 1`, flattening a Loop command appends, for every
iteration `i` in `0..loopcount-1`, each flattened child shifted by
`starttime + i × duration`, where `duration` is the maximum end among the
zero-based children (at least 0) — iteration 0 is the plain
`starttime`-shifted copy, iterations `1..loopcount-1` add `i × duration`. -/
theorem flatten_loop_expansion :
    parseFlat [.loop 1 1000 3 [.simple fadeChildC2]] =
      [⟨2, .Linear, 1000, 1500, .fade 0 1⟩,
       ⟨2, .Linear, 1500, 2000, .fade 0 1⟩,
       ⟨2, .Linear, 2000, 2500, .fade 0 1⟩] ∧
    ∀ (ln : Nat) (starttime loopcount : Int) (children rest : List Command),
      1 ≤ loopcount →
      parseFlat (.loop ln starttime loopcount children :: rest) =
        ((List.range loopcount.toNat).flatMap (fun i =>
          (parseFlat children).map
            (shiftCmd (starttime + i * durSpec (parseFlat children))))) ++
        parseFlat rest := by
  constructor
  · simp [parseFlat, fadeChildC2, List.range']
  · intro ln starttime loopcount children rest hlc
    have htn : loopcount.toNat = (loopcount - 1).toNat + 1 := by omega
    rw [parseFlat]
    simp only [foldl_max_endT_eq]
    have hdur : (List.map SimpleCommand.endT (parseFlat children)).foldr max 0 =
        durSpec (parseFlat children) := rfl
    rw [hdur, htn, List.range_eq_range', List.range'_succ, List.flatMap_cons]
    simp only [List.append_assoc, Nat.zero_add]
    congr 1
    · apply List.map_congr_left
      intro c _
      simp [shiftCmd]
    congr 1
    apply List.flatMap_congr
    intro i _
    rw [List.map_map]
    apply List.map_congr_left
    intro c _
    simp [Function.comp, shiftCmd, add_assoc]

/-- Witness for C2's general part: `L,1000,3` over the spec's Fade child,
with the hypothesis `1 ≤ 3` discharged concretely. -/
theorem flatten_loop_expansion_witness :
    parseFlat [.loop 1 1000 3 [.simple fadeChildC2]] =
      ((List.range (3 : Int).toNat).flatMap (fun i =>
        (parseFlat [Command.simple fadeChildC2]).map
          (shiftCmd (1000 + i * durSpec (parseFlat [Command.simple fadeChildC2]))))) ++
      parseFlat [] :=
  flatten_loop_expansion.2 1 1000 3 [Command.simple fadeChildC2] [] (by norm_num)

/-- `ClassifiedCommands.parse` from `osb.py`, read back through
`__getitem__`: the dictionary holds one list per simple-command class and
appends each flattened command to its class's list, so the per-kind list is
the order-preserving filter of the flattened list. -/
def classifyKind (cmds : List SimpleCommand) (k : CmdKind) : List SimpleCommand :=
  cmds.filter (fun c => c.kind = k)

/-- `CmdFade.start_opacity`; only ever applied to fade-classified commands,
where the payload is a `.fade`. -/
def fadeStartOpacity (c : SimpleCommand) : ℚ :=
  match c.payload with
  | .fade so _ => so
  | _ => 0

/-- `CmdFade.end_opacity`. -/
def fadeEndOpacity (c : SimpleCommand) : ℚ :=
  match c.payload with
  | .fade _ eo => eo
  | _ => 0

/-- The `for cmd in fade_cmds` loop of `ClassifiedCommands.visible_ranges`
in `osb.py`, including the trailing `if start is not None` yield.  `st` is
the loop-carried `start` variable (`none` = Python `None`). -/
def fadeLoop (endAll : Int) : Option Int → List SimpleCommand → List (Int × Int)
  | some s, [] => [(s, endAll)]
  | none, [] => []
  | st, cmd :: rest =>
      let st1 : Option Int :=
        match st with
        | none =>
            if fadeStartOpacity cmd ≠ 0 ∨ fadeEndOpacity cmd ≠ 0 then some cmd.start
            else none
        | some s => some s
      match st1 with
      | some s =>
          if fadeEndOpacity cmd = 0 then (s, cmd.endT) :: fadeLoop endAll none rest
          else fadeLoop endAll (some s) rest
      | none => fadeLoop endAll none rest

/-- `ClassifiedCommands.visible_ranges` from `osb.py`: empty output for an
empty flattened list (the `if not self.flatten` guard), otherwise the fade
scan seeded with the flattened timeline's minimum start. -/
def visible_ranges (flat : List SimpleCommand) : List (Int × Int) :=
  match flat with
  | [] => []
  | _ :: _ => fadeLoop (get_end flat) (some (get_start flat)) (classifyKind flat .fade)

/-- The two Fade commands `F,0,0,100,0,1` and `F,0,200,300,1,0` of the
spec's visible-range scenario. -/
def fadeSeqC6 : List SimpleCommand :=
  [⟨1, .Linear, 0, 100, .fade 0 1⟩, ⟨2, .Linear, 200, 300, .fade 1 0⟩]

/-- C6.  Over the object whose flattened commands are `F,0,0,100,0,1` then
`F,0,200,300,1,0`, the earliest flattened start is 0, the latest flattened
end is 300, and `visible_ranges` yields exactly one range, (0, 300). -/
theorem visible_ranges_example :
    get_start fadeSeqC6 = 0 ∧ get_end fadeSeqC6 = 300 ∧
      visible_ranges fadeSeqC6 = [(0, 300)] := by
  refine ⟨rfl, rfl, ?_⟩
  norm_num [visible_ranges, fadeSeqC6, get_start, get_end, classifyKind, fadeLoop,
    fadeStartOpacity, fadeEndOpacity, SimpleCommand.kind, Payload.kind, List.filter]

/-- Python's single-character `str.split(sep)`: always returns at least one
(possibly empty) field, with one extra field per separator occurrence. -/
def splitChar (sep : Char) : Str → List Str
  | [] => [[]]
  | c :: rest =>
      let r := splitChar sep rest
      if c = sep then [] :: r
      else
        match r with
        | [] => [[c]]
        | g :: gs => (c :: g) :: gs

/-- `split_parts` from `utils.py`: split the text on `"`, then split the
even-indexed (unquoted) chunks on `,`, dropping the first comma-field of a
chunk that follows a quoted field and the last comma-field of a chunk that
precedes one; odd-indexed (quoted) chunks are emitted verbatim. -/
def split_parts (text : Str) : List Str :=
  let sbq := splitChar '"' text
  let n := sbq.length
  sbq.enum.flatMap (fun p =>
    let i := p.1
    let part := p.2
    if i % 2 = 0 then
      let sbc := splitChar ',' part
      let sbc := if i ≠ 0 then sbc.drop 1 else sbc
      let sbc := if i ≠ n - 1 then sbc.dropLast else sbc
      sbc
    else [part])

/-- C7.  `split_parts` splits on commas, keeps commas inside a
double-quoted segment as part of that field, and strips the quote
characters: `split_parts('a,"b,c",d') == ['a', 'b,c', 'd']`, and likewise
on a realistic sprite line with a quoted file path. -/
theorem split_parts_quoted_comma :
    split_parts "a,\"b,c\",d".toList = ["a".toList, "b,c".toList, "d".toList] ∧
    split_parts "Sprite,Background,Centre,\"dir,img.png\",320,240".toList =
      ["Sprite".toList, "Background".toList, "Centre".toList,
       "dir,img.png".toList, "320".toList, "240".toList] := by
  constructor <;> decide

/-- `get_default` from `utils.py` (with the `None` default): `lst[at]` when
in range, else `none`. -/
def get_default (lst : List Str) (at_ : Nat) : Option Str :=
  if at_ < lst.length then some (lst.getD at_ []) else none

/-- Python's `x or y` on an optional string `x` (`None` and `''` are
falsy). -/
def pyOr (a : Option Str) (b : Str) : Str :=
  match a with
  | some s => if s = [] then b else s
  | none => b

/-- `Command.parse_attr_args` from `osb.py`: the attribute fields are
scanned in steps of `one_arg_len`; each step emits its own group (`part1`,
Python's slice `args[i:i+k]`, modelled index-wise) followed by the next
group, whose missing or empty entries fall back to the corresponding
`part1` entry (shorthand3).  The iteration bound drops the final group
unless the list is exactly one group long. -/
def parse_attr_args (args : List Str) (one_arg_len : Nat) : List (List Str) :=
  let length := if args.length ≠ one_arg_len then args.length - one_arg_len
    else args.length
  (List.range' 0 ((length + one_arg_len - 1) / one_arg_len) one_arg_len).map (fun i =>
    let part1 := (List.range one_arg_len).map (fun j => args.getD (i + j) [])
    let part2 := (List.range one_arg_len).map (fun j =>
      pyOr (get_default args (i + one_arg_len + j)) (args.getD (i + j) []))
    part1 ++ part2)

/-- Decimal-digit parse of a non-empty digit string. -/
def pyDigits? (l : Str) : Option Nat :=
  if l = [] then none
  else
    l.foldl (fun acc c =>
      match acc with
      | none => none
      | some n => if c.isDigit then some (n * 10 + (c.toNat - '0'.toNat)) else none)
      (some 0)

/-- Python `int(s)` restricted to an optional sign followed by decimal
digits; `none` models the `ValueError`. -/
def pyInt? (s : Str) : Option Int :=
  match s with
  | '-' :: rest => (pyDigits? rest).map (fun n => -(n : Int))
  | '+' :: rest => (pyDigits? rest).map (fun n => (n : Int))
  | _ => (pyDigits? s).map (fun n => (n : Int))

/-- `Command.parse_time_args` from `osb.py`: an empty end field reuses the
start field (shorthand2); the easing field is an `Easing` member by value;
`none` models the `ValueError`/`InvalidEnum` failures. -/
def parse_time_args (s_easing s_start s_end : Str) : Option (Easing × Int × Int) :=
  let s_end := if s_end = [] then s_start else s_end
  match pyInt? s_easing, pyInt? s_start, pyInt? s_end with
  | some e, some st, some en =>
      match easingOfValue e with
      | some easing => some (easing, st, en)
      | none => none
  | _, _, _ => none

/-- The `yield`/`start += duration` loop of `Command.parse_args`: each
attribute group becomes one command, and the time window slides forward by
`duration` after every emission. -/
def emitChain (easing : Easing) (duration : Int) :
    Int → Int → List (List Str) → List (Easing × Int × Int × List Str)
  | _, _, [] => []
  | start, endT, attrs :: rest =>
      (easing, start, endT, attrs) ::
        emitChain easing duration (start + duration) (endT + duration) rest

/-- The parse-time failures of `Command.parse_args`. -/
inductive ParseError where
  | wrongArgumentCount
  | invalidTimeArgs
deriving DecidableEq, Repr

/-- `Command.parse_args` from `osb.py`: `raise_if_wrong_count` (the field
count beyond the three time fields must be a positive multiple of
`one_arg_len`), then `parse_time_args` on the first three fields, then one
command per attribute group with the start/end window sliding by the first
group's duration. -/
def parse_args (args : List Str) (one_arg_len : Nat) :
    Except ParseError (List (Easing × Int × Int × List Str)) :=
  if (args.length : Int) - 3 < (one_arg_len : Int) ∨
      ((args.length : Int) - 3) % (one_arg_len : Int) ≠ 0 then
    .error .wrongArgumentCount
  else
    match parse_time_args (args.getD 0 []) (args.getD 1 []) (args.getD 2 []) with
    | none => .error .invalidTimeArgs
    | some (easing, start, endT) =>
        .ok (emitChain easing (endT - start) start endT
          (parse_attr_args (args.drop 3) one_arg_len))

lemma getD_drop (l : List Str) (n i : Nat) :
    (l.drop n).getD i [] = l.getD (n + i) [] := by
  simp [List.getD, List.getElem?_drop]

lemma emitChain_length (e : Easing) (d st en : Int) (groups : List (List Str)) :
    (emitChain e d st en groups).length = groups.length := by
  induction groups generalizing st en with
  | nil => rfl
  | cons g t ih => simp [emitChain, ih]

lemma emitChain_getD (e : Easing) (d st en : Int) (groups : List (List Str))
    (i : Nat) (h : i < groups.length) :
    (emitChain e d st en groups).getD i (.Linear, 0, 0, []) =
      (e, st + i * d, en + i * d, groups.getD i []) := by
  induction groups generalizing st en i with
  | nil => simp at h
  | cons g t ih =>
      cases i with
      | zero => simp [emitChain]
      | succ j =>
          rw [emitChain, List.getD_cons_succ, ih _ _ j (by simpa using h)]
          simp only [List.getD_cons_succ, Prod.mk.injEq]
          refine ⟨trivial, by push_cast; ring, by push_cast; ring, trivial⟩

lemma parse_attr_args_groups (A : List Str) (k m : Nat) (hk : 1 ≤ k) (hm : 2 ≤ m)
    (hlen : A.length = m * k) (hne : ∀ s ∈ A, s ≠ ([] : Str)) :
    (parse_attr_args A k).length = m - 1 ∧
    ∀ i, i < m - 1 → (parse_attr_args A k).getD i [] =
      (List.range k).map (fun j => A.getD (i * k + j) []) ++
      (List.range k).map (fun j => A.getD ((i + 1) * k + j) []) := by
  have hnk : A.length ≠ k := by
    rw [hlen]
    have : k < m * k := by
      calc k = 1 * k := (one_mul k).symm
      _ < m * k := (Nat.mul_lt_mul_right (by omega)).mpr (by omega)
    omega
  have hsub : A.length - k = (m - 1) * k := by rw [hlen, Nat.sub_mul, one_mul]
  have hcount : ((m - 1) * k + k - 1) / k = m - 1 := by
    have h1 : (m - 1) * k + k - 1 = (k - 1) + k * (m - 1) := by rw [Nat.mul_comm]; omega
    rw [h1, Nat.add_mul_div_left _ _ (by omega : 0 < k), Nat.div_eq_of_lt (by omega)]
    omega
  rw [parse_attr_args]
  simp only [if_pos hnk, hsub, hcount]
  refine ⟨by simp, ?_⟩
  intro i hi
  have hilen : i < (List.range' 0 (m - 1) k).length := by simpa using hi
  rw [List.getD_eq_getElem _ _ (by simpa using hi), List.getElem_map,
    List.getElem_range']
  simp only [Nat.zero_add]
  refine congrArg₂ (· ++ ·) ?_ ?_
  · apply List.map_congr_left
    intro j _
    rw [Nat.mul_comm k i]
  · apply List.map_congr_left
    intro j hj
    have hjk : j < k := List.mem_range.mp hj
    have hidx : k * i + k + j < A.length := by
      rw [hlen]
      have h1 : k * i + k + j < k * (i + 1) + k := by ring_nf; omega
      have h2 : k * (i + 1) + k ≤ k * m := by
        have : i + 2 ≤ m := by omega
        calc k * (i + 1) + k = k * (i + 2) := by ring
        _ ≤ k * m := Nat.mul_le_mul_left k this
      calc k * i + k + j < k * (i + 1) + k := h1
      _ ≤ k * m := h2
      _ = m * k := Nat.mul_comm k m
    have hget : get_default A (k * i + k + j) = some (A.getD (k * i + k + j) []) := by
      rw [get_default, if_pos hidx]
    have hmem : A.getD (k * i + k + j) [] ∈ A := by
      rw [List.getD_eq_getElem _ _ hidx]
      exact List.getElem_mem hidx
    rw [hget, pyOr, if_neg (hne _ hmem)]
    refine congrArg (fun t => A.getD t []) ?_
    ring

/-- C3.  For an attribute-bearing command line whose three time fields parse
to `(easing, start, end)` and whose attribute fields are all non-empty and
number `m·k` (`k` the command's arity, `m ≥ 2`), `parse_args` produces
exactly `m−1` commands: the `i`-th (0-based) takes attribute group `i` as
its start values and group `i+1` as its end values, and its start/end times
are the line's, each offset by `i·(end−start)`. -/
theorem parse_args_chain (args : List Str) (k m : Nat) (e : Easing) (st en : Int)
    (hk : 1 ≤ k) (hm : 2 ≤ m) (hlen : args.length = 3 + m * k)
    (hne : ∀ s ∈ args.drop 3, s ≠ ([] : Str))
    (htime : parse_time_args (args.getD 0 []) (args.getD 1 []) (args.getD 2 []) =
      some (e, st, en)) :
    ∃ l, parse_args args k = .ok l ∧ l.length = m - 1 ∧
      ∀ i, i < m - 1 → l.getD i (.Linear, 0, 0, []) =
        (e, st + i * (en - st), en + i * (en - st),
          (List.range k).map (fun j => args.getD (3 + (i * k + j)) []) ++
          (List.range k).map (fun j => args.getD (3 + ((i + 1) * k + j)) [])) := by
  have hdlen : (args.drop 3).length = m * k := by
    rw [List.length_drop, hlen]; omega
  have hcond : ¬((args.length : Int) - 3 < (k : Int) ∨
      ((args.length : Int) - 3) % (k : Int) ≠ 0) := by
    rw [hlen]
    push_cast
    push_neg
    constructor
    · have hkm : (k : Int) ≤ (m : Int) * k := by
        have : (1 : Int) * k ≤ m * k := by
          apply mul_le_mul_of_nonneg_right <;> omega
        omega
      omega
    · have : (3 : Int) + ↑m * ↑k - 3 = ↑m * ↑k := by ring
      rw [this, Int.mul_emod_left]
  obtain ⟨hglen, hgelts⟩ := parse_attr_args_groups (args.drop 3) k m hk hm hdlen hne
  refine ⟨emitChain e (en - st) st en (parse_attr_args (args.drop 3) k), ?_, ?_, ?_⟩
  · rw [parse_args, if_neg hcond, htime]
  · rw [emitChain_length, hglen]
  · intro i hi
    rw [emitChain_getD _ _ _ _ _ i (by rw [hglen]; exact hi), hgelts i hi]
    refine congrArg (fun x => (e, st + ↑i * (en - st), en + ↑i * (en - st), x)) ?_
    refine congrArg₂ (· ++ ·) ?_ ?_ <;>
      exact List.map_congr_left (fun j _ => getD_drop args 3 _)

/-- The argument fields of the scale line `S,0,0,1000,1,2,3`. -/
def argsC3 : List Str :=
  ["0".toList, "0".toList, "1000".toList, "1".toList, "2".toList, "3".toList]

/-- Witness for C3: the scale line `S,0,0,1000,1,2,3` (arity 1, three
attribute fields) chains into two consecutive commands. -/
theorem parse_args_chain_witness :
    ∃ l, parse_args argsC3 1 = .ok l ∧ l.length = 3 - 1 ∧
      ∀ i, i < 3 - 1 → l.getD i (.Linear, 0, 0, []) =
        (Easing.Linear, (0 : Int) + i * ((1000 : Int) - 0),
          (1000 : Int) + i * ((1000 : Int) - 0),
          (List.range 1).map (fun j => argsC3.getD (3 + (i * 1 + j)) []) ++
          (List.range 1).map (fun j => argsC3.getD (3 + ((i + 1) * 1 + j)) [])) :=
  parse_args_chain argsC3 1 3 .Linear 0 1000 (by norm_num) (by norm_num)
    (by decide) (by decide) (by decide)

/-- The `(lineno, text)` head of a tree node in `tree.py`. -/
structure NodeData where
  lineno : Nat
  text : Str
deriving DecidableEq, Repr

/-- `Tree` from `tree.py`: `((lineno, text), children)`. -/
inductive PTree where
  | node (data : NodeData) (children : List PTree)

/-- A stack frame of `lines2tree`: a node under construction with the
children accumulated so far.  Python shares the node between the stack and
its parent's child list and mutates the child list in place; in this
functional model a frame's children are materialised into a `PTree` when
the frame is popped, which attaches the finished node to the frame below
in the same left-to-right order. -/
abbrev Frame := NodeData × List PTree

def finishFrame (f : Frame) : PTree := .node f.1 f.2

/-- One `stack.pop()` of `lines2tree`. -/
def popOnce : List Frame → List Frame
  | f :: g :: rest => (g.1, g.2 ++ [finishFrame f]) :: rest
  | l => l

/-- `pop_times` consecutive `stack.pop()` calls. -/
def popN : Nat → List Frame → List Frame
  | 0, l => l
  | n + 1, l => popN n (popOnce l)

/-- The `IndentError` payload: the f-string names the space count and the
line number. -/
structure IndentErr where
  lineno : Nat
  spaces : Int
deriving DecidableEq, Repr

/-- The body of the `for lineno, line in enumerate(lines, start=1)` loop of
`lines2tree` in `tree.py`, acting on the nesting stack: skip blank and
`//` lines, compute `spaces` (leading-space count, minus one for a `[`
section header), fail with `IndentError` when `pop_times < 0`, otherwise
pop `pop_times` frames and push the new node. -/
def processLine (stack : List Frame) (lineno : Nat) (line : Str) :
    Except IndentErr (List Frame) :=
  let lws := line.dropWhile (fun c => c = ' ')
  if lws = [] ∨ "//".toList.isPrefixOf lws then .ok stack
  else
    let spaces : Int := (line.length : Int) - lws.length -
      (if "[".toList.isPrefixOf lws then 1 else 0)
    let pop_times : Int := (stack.length : Int) - 2 - spaces
    if pop_times < 0 then .error ⟨lineno, spaces⟩
    else .ok ((⟨lineno, lws⟩, []) :: popN pop_times.toNat stack)

/-- The loop of `lines2tree`, threading the stack through the numbered
lines. -/
def processLines (stack : List Frame) : Nat → List Str → Except IndentErr (List Frame)
  | _, [] => .ok stack
  | n, line :: rest =>
      match processLine stack n line with
      | .error e => .error e
      | .ok stack1 => processLines stack1 (n + 1) rest

/-- `lines2tree` from `tree.py`: start from the root frame, process every
line, and return the root.  The trailing `popN` materialises the nodes
still open on the stack (Python's root already contains them by
mutation). -/
def lines2tree (root_name : Str) (lines : List Str) : Except IndentErr PTree :=
  match processLines [(⟨0, root_name⟩, [])] 1 lines with
  | .error e => .error e
  | .ok stack =>
      match popN (stack.length - 1) stack with
      | f :: _ => .ok (finishFrame f)
      | [] => .ok (.node ⟨0, root_name⟩ [])

/-- The claim's `spaces` for a non-skipped line: the count of leading space
characters, minus 1 if the remaining text begins with `[`. -/
def leadSpaces (line : Str) : Int :=
  ((line.takeWhile (fun c => c = ' ')).length : Int) -
    (if "[".toList.isPrefixOf (line.dropWhile (fun c => c = ' ')) then 1 else 0)

/-- C4.  For every non-skipped line (not blank after stripping spaces, not
starting with `//`), with `spaces` the leading-space count minus 1 for a
`[` header and `pop_times = stack depth − 2 − spaces`: a negative
`pop_times` raises `IndentError` naming the line number and space count,
and otherwise `pop_times` frames are popped and the new node is pushed
onto the popped stack (becoming a child of its new top when finished).
Concretely, the document `[Events]` / `Sprite` / `␣␣F` — whose third line
skips an indentation level — makes `lines2tree` fail with the
`IndentError` naming line 3 and its 2 spaces. -/
theorem lines2tree_step (stack : List Frame) (lineno : Nat) (line : Str)
    (hne : line.dropWhile (fun c => c = ' ') ≠ [])
    (hnc : ¬ "//".toList.isPrefixOf (line.dropWhile (fun c => c = ' ')) = true) :
    (((stack.length : Int) - 2 - leadSpaces line < 0 →
      processLine stack lineno line = .error ⟨lineno, leadSpaces line⟩) ∧
    (0 ≤ (stack.length : Int) - 2 - leadSpaces line →
      processLine stack lineno line =
        .ok ((⟨lineno, line.dropWhile (fun c => c = ' ')⟩, []) ::
          popN ((stack.length : Int) - 2 - leadSpaces line).toNat stack))) ∧
    lines2tree [] ["[Events]".toList, "Sprite".toList, "  F".toList] =
      .error ⟨3, 2⟩ := by
  have hsp : (line.length : Int) - (line.dropWhile (fun c => c = ' ')).length =
      ((line.takeWhile (fun c => c = ' ')).length : Int) := by
    have h := congrArg List.length (List.takeWhile_append_dropWhile
      (p := fun c => decide (c = ' ')) (l := line))
    rw [List.length_append] at h
    omega
  constructor
  · rw [processLine]
    rw [if_neg (by push_neg; exact ⟨hne, by simpa using hnc⟩)]
    rw [leadSpaces, ← hsp]
    constructor
    · intro hneg
      rw [if_pos (by omega)]
    · intro hpos
      rw [if_neg (by omega)]
  · rfl

/-- Witness for C4: both branches of the step theorem at concrete inputs —
a 4-space line under a depth-2 stack errors with its line number and space
count; a 0-space line under the same stack pops nothing and is pushed. -/
theorem lines2tree_step_witness :
    processLine [(⟨0, []⟩, []), (⟨1, "[Events]".toList⟩, [])] 5 "    Foo".toList =
      .error ⟨5, 4⟩ ∧
    processLine [(⟨0, []⟩, []), (⟨1, "[Events]".toList⟩, [])] 3 "Sprite".toList =
      .ok ((⟨3, "Sprite".toList⟩, []) ::
        popN (((2 : Int) - 2 - 0).toNat) [(⟨0, []⟩, []), (⟨1, "[Events]".toList⟩, [])]) := by
  constructor
  · exact ((lines2tree_step _ 5 _ (by decide) (by decide)).1).1 (by decide)
  · exact ((lines2tree_step _ 3 _ (by decide) (by decide)).1).2 (by decide)

/-- The failures of `OsuStoryboard.from_tree`'s section scan in `osb.py`:
the two line-numbered section errors, and Python's `KeyError` from the
`taken[EVENTS_SECTION_NAME]` dictionary lookup. -/
inductive SectionError where
  | invalidSection (key : Str) (lineno : Nat)
  | multipleSection (key : Str) (lineno : Nat)
  | keyError
deriving DecidableEq, Repr

def EVENTS_SECTION_NAME : Str := "[Events]".toList

def ptreeData : PTree → NodeData
  | .node d _ => d

/-- The `for child in children` loop of `OsuStoryboard.from_tree`: only
`[Events]` is an admissible key, a repeat is `MultipleSectionError`, and
`taken` can therefore be modelled as the optional `[Events]` child. -/
def takeSections (children : List PTree) (taken : Option PTree) :
    Except SectionError (Option PTree) :=
  match children with
  | [] => .ok taken
  | .node d cs :: rest =>
      if d.text ≠ EVENTS_SECTION_NAME then .error (.invalidSection d.text d.lineno)
      else
        match taken with
        | some _ => .error (.multipleSection d.text d.lineno)
        | none => takeSections rest (some (.node d cs))

/-- `OsuStoryboard.from_tree` from `osb.py`, modelled through the section
scan and the `taken[EVENTS_SECTION_NAME]` lookup: on success it returns the
storyboard name and the `[Events]` subtree that the source hands on to
`Events.from_tree` (whose object parsing is downstream of every
section-level claim). -/
def from_tree : PTree → Except SectionError (Str × PTree)
  | .node root children =>
      match takeSections children none with
      | .error e => .error e
      | .ok none => .error .keyError
      | .ok (some ev) => .ok (root.text, ev)

/-- C5.  `from_tree` accepts exactly one top-level `[Events]` section: with
at most one well-formed `[Events]` child before it, a child whose text is
not `[Events]` raises `InvalidSectionError` carrying that child's line
number, and a second `[Events]` child raises `MultipleSectionError`
carrying the second occurrence's line number. -/
theorem from_tree_section_errors (root : NodeData) (pre : List PTree)
    (d : NodeData) (cs rest : List PTree)
    (hpre : ∀ t ∈ pre, (ptreeData t).text = EVENTS_SECTION_NAME)
    (hlen : pre.length ≤ 1) :
    (d.text ≠ EVENTS_SECTION_NAME →
      from_tree (.node root (pre ++ .node d cs :: rest)) =
        .error (.invalidSection d.text d.lineno)) ∧
    (d.text = EVENTS_SECTION_NAME → pre.length = 1 →
      from_tree (.node root (pre ++ .node d cs :: rest)) =
        .error (.multipleSection d.text d.lineno)) := by
  match pre, hlen with
  | [], _ =>
      refine ⟨fun hd => ?_, fun hd h1 => by simp at h1⟩
      rw [from_tree, List.nil_append, takeSections, if_pos hd]
  | [PTree.node d0 cs0], _ =>
      have hd0 : d0.text = EVENTS_SECTION_NAME := by
        have h := hpre (PTree.node d0 cs0) (by simp)
        simpa [ptreeData] using h
      constructor
      · intro hd
        rw [from_tree, List.cons_append, List.nil_append, takeSections,
          if_neg (by simpa using hd0), takeSections, if_pos hd]
      · intro hd _
        rw [from_tree, List.cons_append, List.nil_append, takeSections,
          if_neg (by simpa using hd0), takeSections, if_neg (by simpa using hd)]
  | _ :: _ :: _, hlen => simp at hlen

/-- Witness for C5: a `[Foo]` section at line 2 after one `[Events]` is
rejected as invalid; a second `[Events]` at line 7 is rejected as
repeated. -/
theorem from_tree_section_errors_witness :
    from_tree (.node ⟨0, []⟩ [.node ⟨1, "[Events]".toList⟩ [],
        .node ⟨2, "[Foo]".toList⟩ []]) =
      .error (.invalidSection "[Foo]".toList 2) ∧
    from_tree (.node ⟨0, []⟩ [.node ⟨1, "[Events]".toList⟩ [],
        .node ⟨7, "[Events]".toList⟩ []]) =
      .error (.multipleSection "[Events]".toList 7) := by
  constructor
  · exact (from_tree_section_errors ⟨0, []⟩ [.node ⟨1, "[Events]".toList⟩ []]
      ⟨2, "[Foo]".toList⟩ [] [] (by intro t ht; simp at ht; rw [ht]; rfl)
      (by decide)).1 (by decide)
  · exact (from_tree_section_errors ⟨0, []⟩ [.node ⟨1, "[Events]".toList⟩ []]
      ⟨7, "[Events]".toList⟩ [] [] (by intro t ht; simp at ht; rw [ht]; rfl)
      (by decide)).2 (by decide) (by decide)

/-- C10 counterexample: the tree whose only top-level child is `[Foo]` at
line 1 contains no `[Events]` section, yet `from_tree` raises
`InvalidSectionError`, not the `KeyError` the claim predicts. -/
theorem from_tree_no_events_invalid_not_keyerror :
    from_tree (.node ⟨0, []⟩ [.node ⟨1, "[Foo]".toList⟩ []]) =
      .error (.invalidSection "[Foo]".toList 1) ∧
    SectionError.invalidSection "[Foo]".toList 1 ≠ .keyError :=
  ⟨rfl, by decide⟩

lemma takeSections_ok_none (children : List PTree) (taken : Option PTree)
    (h : takeSections children taken = .ok none) : taken = none ∧ children = [] := by
  induction children generalizing taken with
  | nil => exact ⟨by injection h, rfl⟩
  | cons c rest ih =>
      obtain ⟨d, cs⟩ := c
      simp only [takeSections] at h
      by_cases hd : d.text ≠ EVENTS_SECTION_NAME
      · rw [if_pos hd] at h; injection h
      · rw [if_neg hd] at h
        match taken, h with
        | none, h => exact absurd ((ih _ h).1) (by simp)
        | some _, h => injection h

lemma takeSections_ne_keyerror (children : List PTree) (taken : Option PTree) :
    takeSections children taken ≠ .error .keyError := by
  induction children generalizing taken with
  | nil => intro h; injection h
  | cons c rest ih =>
      obtain ⟨d, cs⟩ := c
      simp only [takeSections]
      by_cases hd : d.text ≠ EVENTS_SECTION_NAME
      · rw [if_pos hd]; intro h; injection h with h; injection h
      · rw [if_neg hd]
        match taken with
        | none => exact ih _
        | some _ => intro h; injection h with h; injection h

/-- C10 (amended).  `from_tree` raises `KeyError` exactly when the input
tree has no top-level children at all (e.g. an empty document); a tree
that lacks `[Events]` but has some other section is rejected with the
line-numbered `InvalidSectionError` instead. -/
theorem from_tree_keyerror_iff (root : NodeData) (children : List PTree) :
    from_tree (.node root children) = .error .keyError ↔ children = [] := by
  constructor
  · intro h
    rw [from_tree] at h
    match hts : takeSections children none with
    | .error e =>
        rw [hts] at h
        injection h with h
        rw [h] at hts
        exact absurd hts (takeSections_ne_keyerror children none)
    | .ok none => exact (takeSections_ok_none children none hts).2
    | .ok (some ev) => rw [hts] at h; injection h
  · intro h
    subst h
    rfl

/-- The `while lo < hi` loop of Python's `bisect.bisect_right` (used as
`bisect(commands, t, key=lambda x: x.start)` in `interpolator.py`):
`starts` is the keyed view of the command list. -/
def bisectLoop (starts : List Int) (t : ℚ) (lo hi : Nat) : Nat :=
  if h : lo < hi then
    if t < ((starts.getD ((lo + hi) / 2) 0 : Int) : ℚ) then
      bisectLoop starts t lo ((lo + hi) / 2)
    else
      bisectLoop starts t ((lo + hi) / 2 + 1) hi
  else lo
termination_by hi - lo
decreasing_by
  · omega
  · omega

/-- `bisect(commands, t, key=...)` over the whole list. -/
def bisect (starts : List Int) (t : ℚ) : Nat :=
  bisectLoop starts t 0 starts.length

lemma bisectLoop_ge (starts : List Int) (t : ℚ) (lo hi : Nat) :
    lo ≤ bisectLoop starts t lo hi := by
  induction lo, hi using bisectLoop.induct starts t with
  | case1 lo hi h ht ih => rw [bisectLoop, dif_pos h, if_pos ht]; exact ih
  | case2 lo hi h ht ih =>
      rw [bisectLoop, dif_pos h, if_neg ht]
      omega
  | case3 lo hi h => rw [bisectLoop, dif_neg h]

lemma bisectLoop_le (starts : List Int) (t : ℚ) (lo hi : Nat) (hle : lo ≤ hi) :
    bisectLoop starts t lo hi ≤ hi := by
  induction lo, hi using bisectLoop.induct starts t with
  | case1 lo hi h ht ih =>
      rw [bisectLoop, dif_pos h, if_pos ht]
      exact le_trans (ih (by omega)) (by omega)
  | case2 lo hi h ht ih => rw [bisectLoop, dif_pos h, if_neg ht]; exact ih (by omega)
  | case3 lo hi h => rw [bisectLoop, dif_neg h]; omega

lemma bisectLoop_all_lt (starts : List Int) (t : ℚ) (lo hi : Nat)
    (hall : ∀ i, lo ≤ i → i < hi → t < ((starts.getD i 0 : Int) : ℚ)) :
    bisectLoop starts t lo hi = lo := by
  induction lo, hi using bisectLoop.induct starts t with
  | case1 lo hi h ht ih =>
      rw [bisectLoop, dif_pos h, if_pos ht]
      exact ih (fun i h1 h2 => hall i h1 (by omega))
  | case2 lo hi h ht ih =>
      exact absurd (hall ((lo + hi) / 2) (by omega) (by omega)) ht
  | case3 lo hi h => rw [bisectLoop, dif_neg h]

lemma bisectLoop_located (starts : List Int) (t : ℚ) (lo hi : Nat)
    (hne : bisectLoop starts t lo hi ≠ lo) :
    ((starts.getD (bisectLoop starts t lo hi - 1) 0 : Int) : ℚ) ≤ t := by
  induction lo, hi using bisectLoop.induct starts t with
  | case1 lo hi h ht ih =>
      rw [bisectLoop, dif_pos h, if_pos ht] at hne ⊢
      exact ih hne
  | case2 lo hi h ht ih =>
      rw [bisectLoop, dif_pos h, if_neg ht] at hne ⊢
      by_cases heq : bisectLoop starts t ((lo + hi) / 2 + 1) hi = (lo + hi) / 2 + 1
      · rw [heq]
        simpa using le_of_not_lt ht
      · exact ih heq
  | case3 lo hi h =>
      rw [bisectLoop, dif_neg h] at hne
      exact absurd rfl hne

/-- `AnimInterpolator` from `interpolator.py` (the element type is always a
`SimpleCommand` subclass, here the unified `SimpleCommand`). -/
structure AnimInterpolator (U : Type) where
  default : U
  commands : List SimpleCommand
  key : SimpleCommand → ℚ × ℚ

/-- `AnimInterpolator.__call__` from `interpolator.py`.  `ef` is the easing
library (`Easing.get_function`, transcendental float curves abstracted as an
argument because no claim evaluates them); `inj` embeds the float results
into the return type alongside `default` (`id` for the numeric
interpolators, `some` for the position ones whose default is `None`);
`none` models the `ZeroDivisionError` of
`(t - cmd.start) / (cmd.end - cmd.start)`. -/
def animCall (ef : Easing → ℚ → ℚ) (inj : ℚ → U) (ai : AnimInterpolator U)
    (t : ℚ) : Option U :=
  match ai.commands with
  | [] => some ai.default
  | c0 :: _ =>
      let idx := bisect (ai.commands.map SimpleCommand.start) t
      if idx = 0 then some (inj (ai.key c0).1)
      else
        let cmd := ai.commands.getD (idx - 1) c0
        if t ≥ (cmd.endT : ℚ) then some (inj (ai.key cmd).2)
        else if ((cmd.endT : Int) : ℚ) - ((cmd.start : Int) : ℚ) = 0 then none
        else
          let alpha := ef cmd.easing ((t - (cmd.start : ℚ)) / ((cmd.endT : ℚ) - (cmd.start : ℚ)))
          some (inj ((1 - alpha) * (ai.key cmd).1 + alpha * (ai.key cmd).2))

/-- `ObjectInterpolator.create_fade_interpolator` from `interpolator.py`:
default opacity 1, keyed by `(start_opacity, end_opacity)`. -/
def create_fade_interpolator (commands : List SimpleCommand) : AnimInterpolator ℚ :=
  ⟨1, commands, fun c => (fadeStartOpacity c, fadeEndOpacity c)⟩

/-- The fade command `F,0,100,200,0,1` used against C1: its start opacity 0
differs from the fade default 1. -/
def fadeCmdC1 : SimpleCommand := ⟨1, .Linear, 100, 200, .fade 0 1⟩

/-- C1 counterexample: the fade interpolator over the single command
`F,0,100,200,0,1` queried at `t = 0` (strictly before every start) returns
the command's own start opacity 0, not the fixed fade default 1.0 that the
claim predicts. -/
theorem animCall_before_first_counterexample :
    animCall (fun _ q => q) id (create_fade_interpolator [fadeCmdC1]) 0 = some 0 ∧
    (create_fade_interpolator [fadeCmdC1]).default = 1 ∧ (0 : ℚ) ≠ 1 := by
  refine ⟨?_, rfl, by norm_num⟩
  have hidx : bisect [(100 : Int)] 0 = 0 := by
    rw [bisect]
    apply bisectLoop_all_lt
    intro i h1 h2
    simp only [List.length_cons, List.length_nil] at h2
    interval_cases i
    norm_num
  simp [animCall, create_fade_interpolator, fadeCmdC1, hidx, fadeStartOpacity]

/-- C1 (amended).  For every kind, querying the interpolator at a time `t`
that strictly precedes the start of every command of a non-empty command
list returns the *first command's own start value* (`key(commands[0])[0]`);
the fixed per-kind default is returned only when the command list is
empty. -/
theorem animCall_before_first_start_value :
    (∀ (U : Type) (ef : Easing → ℚ → ℚ) (inj : ℚ → U) (ai : AnimInterpolator U)
      (t : ℚ) (c0 : SimpleCommand) (rest : List SimpleCommand),
      ai.commands = c0 :: rest →
      (∀ c ∈ ai.commands, t < (c.start : ℚ)) →
      animCall ef inj ai t = some (inj (ai.key c0).1)) ∧
    (∀ (U : Type) (ef : Easing → ℚ → ℚ) (inj : ℚ → U) (dflt : U)
      (key : SimpleCommand → ℚ × ℚ) (t : ℚ),
      animCall ef inj ⟨dflt, [], key⟩ t = some dflt) := by
  constructor
  · intro U ef inj ai t c0 rest hcmds hbefore
    obtain ⟨dflt, cmds, key⟩ := ai
    simp only at hcmds
    subst hcmds
    have hidx : bisect ((c0 :: rest).map SimpleCommand.start) t = 0 := by
      rw [bisect]
      apply bisectLoop_all_lt
      intro i h1 h2
      rw [List.length_map] at h2
      rw [List.getD_eq_getElem _ _ (by rw [List.length_map]; exact h2),
        List.getElem_map]
      exact hbefore _ (List.getElem_mem h2)
    have hidx' : bisect (c0.start :: rest.map SimpleCommand.start) t = 0 := by
      rw [List.map_cons] at hidx
      exact hidx
    simp [animCall, hidx, hidx']
  · intro U ef inj dflt key t
    rfl

/-- Witness for C1's amended theorem: the fade interpolator over
`F,0,100,200,0,1` at `t = 0` returns that command's start-opacity key
entry. -/
theorem animCall_before_first_start_value_witness :
    animCall (fun _ q => q) id (create_fade_interpolator [fadeCmdC1]) 0 =
      some (id ((create_fade_interpolator [fadeCmdC1]).key fadeCmdC1).1) :=
  animCall_before_first_start_value.1 ℚ (fun _ q => q) id
    (create_fade_interpolator [fadeCmdC1]) 0 fadeCmdC1 [] rfl
    (by
      intro c hc
      simp only [create_fade_interpolator] at hc
      rw [List.mem_singleton] at hc
      subst hc
      norm_num [fadeCmdC1])

/-- C9.  For every command list in which each command satisfies
`end ≥ start`, the interpolator call is total for every `t` and every
easing family: the command located by the binary search has `start ≤ t`,
so the normalized-phase division is reached only when `start < end`, and
an instant command is answered through the `t ≥ end` branch — the
`ZeroDivisionError` case (modelled as `none`) is never hit. -/
theorem animCall_total (U : Type) (ef : Easing → ℚ → ℚ) (inj : ℚ → U)
    (ai : AnimInterpolator U) (t : ℚ)
    (h : ∀ c ∈ ai.commands, c.start ≤ c.endT) :
    (animCall ef inj ai t).isSome := by
  obtain ⟨dflt, cmds, key⟩ := ai
  simp only at h
  match cmds, h with
  | [], h => rfl
  | c0 :: rest, h =>
      simp only [animCall]
      split_ifs with h1 h2 h3
      · rfl
      · rfl
      · exfalso
        set S := List.map SimpleCommand.start (c0 :: rest) with hS
        set n := bisect S t with hn
        have hle : n ≤ (c0 :: rest).length := by
          rw [hn, bisect]
          have hb := bisectLoop_le S t 0 S.length (Nat.zero_le _)
          simpa [hS] using hb
        have hsub : n - 1 < (c0 :: rest).length := by
          have hpos : 0 < (c0 :: rest).length := by simp
          omega
        have hloc : ((S.getD (n - 1) 0 : Int) : ℚ) ≤ t := by
          rw [hn, bisect]
          apply bisectLoop_located
          rw [← bisect, ← hn]
          exact h1
        rw [hS] at hloc
        rw [List.getD_eq_getElem _ _ (by rw [List.length_map]; exact hsub),
          List.getElem_map] at hloc
        rw [List.getD_eq_getElem _ _ hsub] at h2 h3
        push_neg at h2
        rw [sub_eq_zero] at h3
        rw [h3] at h2
        exact absurd h2 (not_lt.mpr hloc)
      · rfl

/-- Witness for C9: the fade interpolator over `F,0,100,200,0,1` (which
satisfies `end ≥ start`) is defined at `t = 150`. -/
theorem animCall_total_witness :
    (animCall (fun _ q => q) id (create_fade_interpolator [fadeCmdC1]) 150).isSome :=
  animCall_total ℚ (fun _ q => q) id (create_fade_interpolator [fadeCmdC1]) 150
    (by
      intro c hc
      simp only [create_fade_interpolator] at hc
      rw [List.mem_singleton] at hc
      subst hc
      norm_num [fadeCmdC1])

/-!
The frame claim about `FlattenedCommands.parse` concerns Python object
identity: the flattened list holds `copy.copy`-ies, and the in-place
`+=` time shifts touch only those copies, never the commands reachable
from the original `Object`.  To express this, the commands live in an
explicit heap: `Object.commands` holds *addresses*, `copy.copy`
allocates, and the `+=` mutations are `List.set` on the heap.
-/

/-- A heap of `SimpleCommand` objects, addressed by position. -/
abbrev Heap := List SimpleCommand

/-- Dereference an address (total, with a dummy cell out of range; the
frame theorem never depends on the dummy). -/
def heapGet (h : Heap) (a : Nat) : SimpleCommand :=
  h.getD a ⟨0, .Linear, 0, 0, .fade 0 0⟩

/-- A command tree whose simple commands are heap references. -/
inductive CommandRef where
  | simple (addr : Nat)
  | loop (lineno : Nat) (starttime loopcount : Int) (children : List CommandRef)
  | triggeredLoop (lineno : Nat) (trigger : Trigger) (start endT : Int)
      (children : List CommandRef)

/-- `copy.copy(cmd)`: allocate a fresh cell holding the same field
values; returns the new heap and the fresh address. -/
def copyCmd (h : Heap) (a : Nat) : Heap × Nat :=
  (h ++ [heapGet h a], h.length)

/-- The first `for subcmd in subcommands` loop of
`FlattenedCommands.parse`: accumulate `duration` from each pre-shift
`end`, then shift the (freshly copied) subcommand in place by
`starttime`. -/
def shiftLoop (starttime : Int) : List Nat → Heap → Int → Heap × Int
  | [], h, d => (h, d)
  | a :: as, h, d =>
      shiftLoop starttime as
        (h.set a { heapGet h a with
          start := (heapGet h a).start + starttime,
          endT := (heapGet h a).endT + starttime })
        (max d (heapGet h a).endT)

/-- One iteration of the `for i in range(1, loopcount)` loop:
`copy.copy` every shifted subcommand and shift the copy by `offset`. -/
def iterOnce (off : Int) : List Nat → Heap → Heap × List Nat
  | [], h => (h, [])
  | a :: as, h =>
      ((iterOnce off as (h ++ [{ heapGet h a with
          start := (heapGet h a).start + off,
          endT := (heapGet h a).endT + off }])).1,
        h.length :: (iterOnce off as (h ++ [{ heapGet h a with
          start := (heapGet h a).start + off,
          endT := (heapGet h a).endT + off }])).2)

/-- The `for i in range(1, loopcount)` loop. -/
def iterAll (duration : Int) (subs : List Nat) : List Nat → Heap → Heap × List Nat
  | [], h => (h, [])
  | i :: is, h =>
      ((iterAll duration subs is (iterOnce ((i : Int) * duration) subs h).1).1,
        (iterOnce ((i : Int) * duration) subs h).2 ++
          (iterAll duration subs is (iterOnce ((i : Int) * duration) subs h).1).2)

/-- `FlattenedCommands.parse` over the reference model (same recursion and
append order as `parseFlat`, with allocation and in-place mutation made
explicit); returns the final heap and the addresses of the flattened
commands. -/
def parseH : List CommandRef → Heap → Heap × List Nat
  | [], h => (h, [])
  | .simple a :: rest, h =>
      ((parseH rest (copyCmd h a).1).1,
        (copyCmd h a).2 :: (parseH rest (copyCmd h a).1).2)
  | .loop _ starttime loopcount children :: rest, h =>
      ((parseH rest (iterAll (shiftLoop starttime (parseH children h).2
          (parseH children h).1 0).2 (parseH children h).2
          (List.range' 1 (loopcount - 1).toNat)
          (shiftLoop starttime (parseH children h).2 (parseH children h).1 0).1).1).1,
        (parseH children h).2 ++
          (iterAll (shiftLoop starttime (parseH children h).2
            (parseH children h).1 0).2 (parseH children h).2
            (List.range' 1 (loopcount - 1).toNat)
            (shiftLoop starttime (parseH children h).2 (parseH children h).1 0).1).2 ++
          (parseH rest (iterAll (shiftLoop starttime (parseH children h).2
            (parseH children h).1 0).2 (parseH children h).2
            (List.range' 1 (loopcount - 1).toNat)
            (shiftLoop starttime (parseH children h).2
              (parseH children h).1 0).1).1).2)
  | .triggeredLoop _ _ _ _ _ :: rest, h => parseH rest h

lemma take_set_of_le (l : Heap) (a : Nat) (v : SimpleCommand) (n : Nat)
    (h : n ≤ a) : (l.set a v).take n = l.take n := by
  apply List.ext_getElem
  · simp
  · intro i h1 h2
    simp only [List.getElem_take]
    rw [List.getElem_set_ne]
    simp only [List.length_take, lt_min_iff] at h1
    omega

lemma take_mono_prefix (h1 h2 : Heap) (n : Nat) (hn : n ≤ h1.length)
    (hp : h2.take h1.length = h1) : h2.take n = h1.take n := by
  rw [← hp, List.take_take, min_eq_left hn]

lemma shiftLoop_spec (st : Int) (as : List Nat) (h : Heap) (d : Int) (n : Nat)
    (haddr : ∀ a ∈ as, n ≤ a) :
    (shiftLoop st as h d).1.take n = h.take n ∧
      (shiftLoop st as h d).1.length = h.length := by
  induction as generalizing h d with
  | nil => exact ⟨rfl, rfl⟩
  | cons a as ih =>
      rw [shiftLoop]
      obtain ⟨t1, l1⟩ := ih (h.set a { heapGet h a with
          start := (heapGet h a).start + st, endT := (heapGet h a).endT + st })
        (max d (heapGet h a).endT) (fun x hx => haddr x (List.mem_cons_of_mem _ hx))
      refine ⟨?_, by rw [l1, List.length_set]⟩
      rw [t1, take_set_of_le _ _ _ _ (haddr a (by simp))]

lemma iterOnce_spec (off : Int) (as : List Nat) (h : Heap) :
    (∃ ext, (iterOnce off as h).1 = h ++ ext) ∧
    ∀ x ∈ (iterOnce off as h).2, h.length ≤ x ∧ x < (iterOnce off as h).1.length := by
  induction as generalizing h with
  | nil =>
      refine ⟨⟨[], by simp [iterOnce]⟩, ?_⟩
      intro x hx
      simp [iterOnce] at hx
  | cons a as ih =>
      rw [iterOnce]
      obtain ⟨⟨ext, hext⟩, hmem⟩ := ih (h ++ [{ heapGet h a with
        start := (heapGet h a).start + off, endT := (heapGet h a).endT + off }])
      constructor
      · refine ⟨{ heapGet h a with
          start := (heapGet h a).start + off, endT := (heapGet h a).endT + off } :: ext, ?_⟩
        rw [hext]
        simp
      · intro x hx
        rcases List.mem_cons.mp hx with rfl | hx'
        · refine ⟨le_refl _, ?_⟩
          rw [hext, List.length_append, List.length_append]
          simp only [List.length_cons, List.length_nil]
          omega
        · obtain ⟨hge, hlt⟩ := hmem x hx'
          refine ⟨?_, hlt⟩
          calc h.length ≤ (h ++ [{ heapGet h a with
              start := (heapGet h a).start + off,
              endT := (heapGet h a).endT + off }]).length := by simp
          _ ≤ x := hge

lemma iterAll_spec (duration : Int) (subs : List Nat) (is : List Nat) (h : Heap) :
    (∃ ext, (iterAll duration subs is h).1 = h ++ ext) ∧
    ∀ x ∈ (iterAll duration subs is h).2,
      h.length ≤ x ∧ x < (iterAll duration subs is h).1.length := by
  induction is generalizing h with
  | nil =>
      refine ⟨⟨[], by simp [iterAll]⟩, ?_⟩
      intro x hx
      simp [iterAll] at hx
  | cons i is ih =>
      rw [iterAll]
      obtain ⟨⟨ext1, hext1⟩, hmem1⟩ := iterOnce_spec ((i : Int) * duration) subs h
      obtain ⟨⟨ext2, hext2⟩, hmem2⟩ := ih (iterOnce ((i : Int) * duration) subs h).1
      constructor
      · refine ⟨ext1 ++ ext2, ?_⟩
        rw [hext2, hext1, List.append_assoc]
      · intro x hx
        rcases List.mem_append.mp hx with hx1 | hx2
        · obtain ⟨hge, hlt⟩ := hmem1 x hx1
          refine ⟨hge, lt_of_lt_of_le hlt ?_⟩
          rw [hext2]
          simp
        · obtain ⟨hge, hlt⟩ := hmem2 x hx2
          refine ⟨?_, hlt⟩
          refine le_trans ?_ hge
          rw [hext1]
          simp

lemma parseH_frame (cmds : List CommandRef) (h : Heap) :
    h.length ≤ (parseH cmds h).1.length ∧
    (parseH cmds h).1.take h.length = h ∧
    ∀ x ∈ (parseH cmds h).2, h.length ≤ x ∧ x < (parseH cmds h).1.length := by
  induction cmds, h using parseH.induct with
  | case1 h =>
      rw [parseH]
      refine ⟨le_refl _, List.take_length h, ?_⟩
      intro x hx
      simp at hx
  | case2 a rest h ih =>
      rw [parseH]
      obtain ⟨ihl, iht, ihm⟩ := ih
      have hlen1 : h.length ≤ ((copyCmd h a).1).length := by
        simp [copyCmd]
      refine ⟨le_trans hlen1 ihl, ?_, ?_⟩
      · have := take_mono_prefix ((copyCmd h a).1) (parseH rest (copyCmd h a).1).1
          h.length hlen1 iht
        rw [this]
        simp [copyCmd, List.take_append_of_le_length (le_refl h.length),
          List.take_length]
      · intro x hx
        rcases List.mem_cons.mp hx with rfl | hx'
        · exact ⟨le_refl _, lt_of_lt_of_le (by simp [copyCmd]) ihl⟩
        · obtain ⟨hge, hlt⟩ := ihm x hx'
          exact ⟨le_trans hlen1 hge, hlt⟩
  | case3 ln starttime loopcount children rest h ih1 ih2 =>
      rw [parseH]
      obtain ⟨ih1l, ih1t, ih1m⟩ := ih1
      obtain ⟨hst, hsl⟩ := shiftLoop_spec starttime (parseH children h).2
        (parseH children h).1 0 h.length (fun x hx => (ih1m x hx).1)
      obtain ⟨⟨ext, hext⟩, himem⟩ := iterAll_spec
        (shiftLoop starttime (parseH children h).2 (parseH children h).1 0).2
        (parseH children h).2 (List.range' 1 (loopcount - 1).toNat)
        (shiftLoop starttime (parseH children h).2 (parseH children h).1 0).1
      obtain ⟨ih2l, ih2t, ih2m⟩ := ih2
      have hlen2 : h.length ≤
          (shiftLoop starttime (parseH children h).2 (parseH children h).1 0).1.length := by
        rw [hsl]; exact ih1l
      have hlen3 : h.length ≤ (iterAll
          (shiftLoop starttime (parseH children h).2 (parseH children h).1 0).2
          (parseH children h).2 (List.range' 1 (loopcount - 1).toNat)
          (shiftLoop starttime (parseH children h).2 (parseH children h).1 0).1).1.length := by
        rw [hext, List.length_append]
        omega
      have hstep2 : (iterAll
          (shiftLoop starttime (parseH children h).2 (parseH children h).1 0).2
          (parseH children h).2 (List.range' 1 (loopcount - 1).toNat)
          (shiftLoop starttime (parseH children h).2
            (parseH children h).1 0).1).1.take h.length =
          (shiftLoop starttime (parseH children h).2
            (parseH children h).1 0).1.take h.length := by
        rw [hext]
        exact List.take_append_of_le_length hlen2
      have hlen4 : (shiftLoop starttime (parseH children h).2
          (parseH children h).1 0).1.length ≤ (iterAll
          (shiftLoop starttime (parseH children h).2 (parseH children h).1 0).2
          (parseH children h).2 (List.range' 1 (loopcount - 1).toNat)
          (shiftLoop starttime (parseH children h).2
            (parseH children h).1 0).1).1.length := by
        rw [hext, List.length_append]
        omega
      refine ⟨le_trans hlen3 ih2l, ?_, ?_⟩
      · have hstep := take_mono_prefix _ _ h.length hlen3 ih2t
        rw [hstep, hstep2, hst]
        exact ih1t
      · intro x hx
        rcases List.mem_append.mp hx with hx12 | hx3
        · rcases List.mem_append.mp hx12 with hx1 | hx2
          · obtain ⟨hge, hlt⟩ := ih1m x hx1
            refine ⟨hge, ?_⟩
            calc x < (parseH children h).1.length := hlt
            _ = (shiftLoop starttime (parseH children h).2
                (parseH children h).1 0).1.length := hsl.symm
            _ ≤ _ := le_trans hlen4 ih2l
          · obtain ⟨hge, hlt⟩ := himem x hx2
            exact ⟨le_trans hlen2 hge, lt_of_lt_of_le hlt ih2l⟩
        · obtain ⟨hge, hlt⟩ := ih2m x hx3
          exact ⟨le_trans hlen3 hge, hlt⟩
  | case4 ln trigger s e cs rest h ih =>
      rw [parseH]
      exact ih

/-- C8.  Flattening never mutates the object it is built from: after
`FlattenedCommands.parse` runs over any command tree (loops and triggered
loops included), every pre-existing heap cell — in particular every
`SimpleCommand` object reachable from the original `Object.commands` —
still holds exactly its old field values; the `+=` time shifts of loop
expansion touch only freshly allocated copies. -/
theorem flatten_no_mutation (cmds : List CommandRef) (h : Heap) :
    (parseH cmds h).1.take h.length = h ∧
    ∀ a, a < h.length → heapGet (parseH cmds h).1 a = heapGet h a := by
  refine ⟨(parseH_frame cmds h).2.1, ?_⟩
  intro a ha
  have hp := (parseH_frame cmds h).2.1
  rw [heapGet, heapGet]
  have hq : (parseH cmds h).1[a]? = h[a]? := by
    conv_rhs => rw [← hp]
    exact (List.getElem?_take_of_lt ha).symm
  rw [List.getD_eq_getElem?_getD, List.getD_eq_getElem?_getD, hq]

/-- Witness for C8: flattening the loop `L,1000,3` over a referenced
`F,0,0,500,0,1` leaves the original command object (heap cell 0)
untouched. -/
theorem flatten_no_mutation_witness :
    heapGet (parseH [CommandRef.loop 1 1000 3 [CommandRef.simple 0]]
      [⟨2, .Linear, 0, 500, .fade 0 1⟩]).1 0 =
    heapGet [⟨2, .Linear, 0, 500, .fade 0 1⟩] 0 :=
  (flatten_no_mutation [CommandRef.loop 1 1000 3 [CommandRef.simple 0]]
    [⟨2, .Linear, 0, 500, .fade 0 1⟩]).2 0 (by decide)

end Osbparser
